import Mathlib

/-!
Shallow embedding of the board/task tree model and its mutation operations
from the Kanban repository (src/src/App.js and src/src/storage.js), together
with theorems settling the specification claims about them.

Conventions:
 * JS objects become Lean structures / inductives with the same field order.
 * The recursive helpers declared inside the React component
   (findAndRemoveTask, addSubtask, updateTitle, removeTask, ...) become
   top-level recursive functions on the task forest.
 * JS array index arithmetic (findIndex, splice) is embedded by the small
   list helpers findIndex, getAt, eraseAt, insertAt, updateAt below, written
   to match the JS semantics exactly (including negative-start splice).
 * Operations that in JS mutate a cloned array and call setBoards become
   functions from the boards list to the new boards list; early returns
   before setBoards (or with an untouched deep clone) return the input list.
-/

namespace Kanban

/-- A content item of a task, as in App.js: an object with keys type and text. -/
structure ContentItem where
  type : String
  text : String
deriving DecidableEq, Repr

/-- A task, as built by addNewTask in App.js: keys id, title, description,
dueDate, priority, tags, subtasks, content, with subtasks a list of tasks. -/
inductive Task : Type where
  | mk (id title description dueDate priority : String)
       (tags : List String) (subtasks : List Task) (content : List ContentItem) : Task
deriving Repr

/-- Task id field. -/
def Task.id : Task → String
  | .mk i _ _ _ _ _ _ _ => i

/-- Task title field. -/
def Task.title : Task → String
  | .mk _ t _ _ _ _ _ _ => t

/-- Task subtasks field. -/
def Task.subtasks : Task → List Task
  | .mk _ _ _ _ _ _ s _ => s

/-- Task content field. -/
def Task.content : Task → List ContentItem
  | .mk _ _ _ _ _ _ _ c => c

mutual

/-- Decidable equality for tasks (structural, all eight fields). -/
def Task.decEq : (a b : Task) → Decidable (a = b)
  | .mk i1 t1 d1 dd1 p1 tg1 s1 c1, .mk i2 t2 d2 dd2 p2 tg2 s2 c2 =>
    if hi : i1 = i2 then
      if ht : t1 = t2 then
        if hd : d1 = d2 then
          if hdd : dd1 = dd2 then
            if hp : p1 = p2 then
              if htg : tg1 = tg2 then
                match Task.decEqList s1 s2 with
                | isTrue hs =>
                  if hc : c1 = c2 then
                    isTrue (by rw [hi, ht, hd, hdd, hp, htg, hs, hc])
                  else isFalse (by intro h; injection h; contradiction)
                | isFalse hs => isFalse (by intro h; injection h; contradiction)
              else isFalse (by intro h; injection h; contradiction)
            else isFalse (by intro h; injection h; contradiction)
          else isFalse (by intro h; injection h; contradiction)
        else isFalse (by intro h; injection h; contradiction)
      else isFalse (by intro h; injection h; contradiction)
    else isFalse (by intro h; injection h; contradiction)

/-- Decidable equality for task forests. -/
def Task.decEqList : (a b : List Task) → Decidable (a = b)
  | [], [] => isTrue rfl
  | [], _ :: _ => isFalse (fun h => List.noConfusion h)
  | _ :: _, [] => isFalse (fun h => List.noConfusion h)
  | x :: xs, y :: ys =>
    match Task.decEq x y, Task.decEqList xs ys with
    | isTrue h1, isTrue h2 => isTrue (by rw [h1, h2])
    | isFalse h1, _ => isFalse (by intro h; injection h; contradiction)
    | _, isFalse h2 => isFalse (by intro h; injection h; contradiction)

end

instance : DecidableEq Task := Task.decEq

/-- A board, as in App.js: keys id, title, color, order, tasks. -/
structure Board where
  id : String
  title : String
  color : String
  order : Nat
  tasks : List Task
deriving Repr, DecidableEq

/-- The drag payload set by handleTaskDragStart: boardId (the source board)
and taskId (the dragged task).  isSubtask and parentTaskId are also carried
in the JS payload but are never read by handleTaskDrop, so they are omitted. -/
structure DragData where
  boardId : String
  taskId : String

/-! ## JS array helpers -/

/-- JS Array.prototype.findIndex, returning none for -1. -/
def findIndex (p : α → Bool) : List α → Option Nat
  | [] => none
  | a :: as => if p a then some 0 else (findIndex p as).map (· + 1)

/-- JS indexed read a[i] (within bounds). -/
def getAt : List α → Nat → Option α
  | [], _ => none
  | a :: _, 0 => some a
  | _ :: as, n + 1 => getAt as n

/-- JS a.splice(i, 1) for a nonnegative in-range i: remove the element at i. -/
def eraseAt : List α → Nat → List α
  | [], _ => []
  | _ :: as, 0 => as
  | a :: as, n + 1 => a :: eraseAt as n

/-- JS a.splice(i, 0, x) for nonnegative i: insert x at position i
(appending when i is at or beyond the end, as splice clamps the start). -/
def insertAt : List α → Nat → α → List α
  | [], _, x => [x]
  | as, 0, x => x :: as
  | a :: as, n + 1, x => a :: insertAt as n x

/-- Replace the element at index i by f of it (JS mutation of a[i] in a copy). -/
def updateAt (l : List α) (i : Nat) (f : α → α) : List α :=
  match l, i with
  | [], _ => []
  | a :: as, 0 => f a :: as
  | a :: as, n + 1 => a :: updateAt as n f

/-! ## Task field updates (the mutations the JS helpers perform on a found task) -/

/-- tasks[i].title = newTitle -/
def Task.withTitle : Task → String → Task
  | .mk i _ d dd p tg s c, t => .mk i t d dd p tg s c

/-- tasks[i].description = newDescription -/
def Task.withDescription : Task → String → Task
  | .mk i t _ dd p tg s c, d => .mk i t d dd p tg s c

/-- tasks[i].dueDate = newDate -/
def Task.withDueDate : Task → String → Task
  | .mk i t d _ p tg s c, dd => .mk i t d dd p tg s c

/-- tasks[i].priority = newPriority -/
def Task.withPriority : Task → String → Task
  | .mk i t d dd _ tg s c, p => .mk i t d dd p tg s c

/-- tasks[i].content = newContent -/
def Task.withContent : Task → List ContentItem → Task
  | .mk i t d dd p tg s _, c => .mk i t d dd p tg s c

/-- tasks[i].subtasks.push(newSubtask) -/
def Task.pushSubtask : Task → Task → Task
  | .mk i t d dd p tg s c, n => .mk i t d dd p tg (s ++ [n]) c

/-! ## Recursive forest helpers from App.js

Each of the recursive helpers declared inside the component walks the task
forest in the same depth-first preorder: test the current task's id, then
recurse into its subtasks, then move on to the following siblings, stopping
at the first match. -/

/-- findAndRemoveTask (handleTaskDrop) and removeTask (deleteTask):
depth-first search for the first task with the given id; remove it
(with its whole subtree) and return it together with the remaining forest. -/
def removeFirst (tid : String) : List Task → Option Task × List Task
  | [] => (none, [])
  | .mk i t d dd p tg s c :: ts =>
    if i = tid then (some (.mk i t d dd p tg s c), ts)
    else
      match removeFirst tid s with
      | (some r, s2) => (some r, .mk i t d dd p tg s2 c :: ts)
      | (none, _) =>
        match removeFirst tid ts with
        | (r, ts2) => (r, .mk i t d dd p tg s c :: ts2)

/-- The common shape of updateTitle, updateTaskDescription, updatePriority,
updateTaskDate, addContentToTask, removeContentFromTask and addSubtask in
App.js: apply f to the first task with the given id (depth-first preorder);
the boolean is the JS return value (whether a task was found). -/
def updateFirst (f : Task → Task) (tid : String) : List Task → List Task × Bool
  | [] => ([], false)
  | .mk i t d dd p tg s c :: ts =>
    if i = tid then (f (.mk i t d dd p tg s c) :: ts, true)
    else
      match updateFirst f tid s with
      | (s2, true) => (.mk i t d dd p tg s2 c :: ts, true)
      | (_, false) =>
        match updateFirst f tid ts with
        | (ts2, b) => (.mk i t d dd p tg s c :: ts2, b)

/-- Like updateFirst but the update may throw (updateTaskContent assigns
content[index].text, which throws a TypeError when the index is out of
range); none embeds the uncaught exception propagating out of the walk. -/
def updateFirstOpt (f : Task → Option Task) (tid : String) :
    List Task → Option (List Task × Bool)
  | [] => some ([], false)
  | .mk i t d dd p tg s c :: ts =>
    if i = tid then (f (.mk i t d dd p tg s c)).map (fun t2 => (t2 :: ts, true))
    else
      match updateFirstOpt f tid s with
      | none => none
      | some (s2, true) => some (.mk i t d dd p tg s2 c :: ts, true)
      | some (_, false) =>
        (updateFirstOpt f tid ts).map (fun r => (.mk i t d dd p tg s c :: r.1, r.2))

/-- Pure depth-first preorder search for the first task with the given id
(the task the mutating walks above would act on). -/
def findFirst (tid : String) : List Task → Option Task
  | [] => none
  | .mk i t d dd p tg s c :: ts =>
    if i = tid then some (.mk i t d dd p tg s c)
    else
      match findFirst tid s with
      | some r => some r
      | none => findFirst tid ts

/-- Number of tasks with the given id anywhere in the forest. -/
def occCount (tid : String) : List Task → Nat
  | [] => 0
  | .mk i _ _ _ _ _ s _ :: ts =>
    (if i = tid then 1 else 0) + occCount tid s + occCount tid ts

/-- Total number of task nodes in the forest (all nesting levels). -/
def sizeForest : List Task → Nat
  | [] => 0
  | .mk _ _ _ _ _ _ s _ :: ts => 1 + sizeForest s + sizeForest ts

/-- All task ids of the forest in depth-first preorder. -/
def forestIds : List Task → List String
  | [] => []
  | .mk i _ _ _ _ _ s _ :: ts => i :: (forestIds s ++ forestIds ts)

/-! ## Board-level operations from App.js -/

/-- The forEach at the end of handleBoardDrop: board.order = index for every
board, walking the array from index n upward. -/
def renumber (n : Nat) : List Board → List Board
  | [] => []
  | b :: bs => { b with order := n } :: renumber (n + 1) bs

/-- handleBoardDrop (spec name: reorderBoards), after the event plumbing:
no-op when the transferred source id is empty (a non-board drag), when the
source and target ids coincide, or when either id has no board; otherwise
splice the dragged board out at its index, splice it back in at the target
board's pre-removal index, and renumber order = index. -/
def handleBoardDrop (boards : List Board) (sourceBoardId targetBoardId : String) :
    List Board :=
  if sourceBoardId = "" ∨ sourceBoardId = targetBoardId then boards
  else
    match findIndex (fun b => b.id = sourceBoardId) boards,
          findIndex (fun b => b.id = targetBoardId) boards with
    | some di, some ti =>
      match getAt boards di with
      | some dragged => renumber 0 (insertAt (eraseAt boards di) ti dragged)
      | none => boards
    | _, _ => boards

/-- The shared pattern of every task-level operation in App.js: copy the
boards array, findIndex the board by id, mutate that board's tasks when the
board exists, and commit the copy (which equals the input when the board is
missing). -/
def modifyTasksAtBoard (boards : List Board) (boardId : String)
    (f : List Task → List Task) : List Board :=
  match findIndex (fun b => b.id = boardId) boards with
  | none => boards
  | some bi => updateAt boards bi (fun b => { b with tasks := f b.tasks })

/-- updateTaskTitle(boardId, taskId, newTitle). -/
def updateTaskTitle (boards : List Board) (boardId taskId newTitle : String) :
    List Board :=
  modifyTasksAtBoard boards boardId
    (fun ts => (updateFirst (fun t => t.withTitle newTitle) taskId ts).1)

/-- The inline onChange handler updateTaskDescription(tasks, targetId, d). -/
def updateTaskDescription (boards : List Board) (boardId taskId newDescription : String) :
    List Board :=
  modifyTasksAtBoard boards boardId
    (fun ts => (updateFirst (fun t => t.withDescription newDescription) taskId ts).1)

/-- updateTaskPriority(boardId, taskId, priority). -/
def updateTaskPriority (boards : List Board) (boardId taskId priority : String) :
    List Board :=
  modifyTasksAtBoard boards boardId
    (fun ts => (updateFirst (fun t => t.withPriority priority) taskId ts).1)

/-- setDueDate(taskId, boardId, date). -/
def setDueDate (boards : List Board) (taskId boardId date : String) : List Board :=
  modifyTasksAtBoard boards boardId
    (fun ts => (updateFirst (fun t => t.withDueDate date) taskId ts).1)

/-- deleteTask(boardId, taskId): remove the first depth-first match from the
given board's forest (the found/not-found boolean is discarded). -/
def deleteTask (boards : List Board) (boardId taskId : String) : List Board :=
  modifyTasksAtBoard boards boardId (fun ts => (removeFirst taskId ts).2)

/-- JS content.splice(index, 1): a negative start counts back from the end
(clamped at 0), a start at or past the end removes nothing. -/
def jsSpliceDelete (l : List α) (index : Int) : List α :=
  eraseAt l
    (if index < 0 then max ((l.length : Int) + index) 0
     else min index (l.length : Int)).toNat

/-- deleteContentItem(taskId, boardId, contentIndex). -/
def deleteContentItem (boards : List Board) (taskId boardId : String)
    (contentIndex : Int) : List Board :=
  modifyTasksAtBoard boards boardId
    (fun ts =>
      (updateFirst (fun t => t.withContent (jsSpliceDelete t.content contentIndex))
        taskId ts).1)

/-- addContentItem(taskId, boardId, type): push a new content item with the
default text for its type. -/
def addContentItem (boards : List Board) (taskId boardId ctype : String) :
    List Board :=
  modifyTasksAtBoard boards boardId
    (fun ts =>
      (updateFirst
        (fun t => t.withContent (t.content ++
          [⟨ctype, if ctype = "bullet" then "New bullet point" else "New numbered item"⟩]))
        taskId ts).1)

/-- content[index].text = newText: a read of content[index] outside the
array bounds yields undefined and the .text assignment throws (none). -/
def setContentText (c : List ContentItem) (index : Int) (newText : String) :
    Option (List ContentItem) :=
  if h : 0 ≤ index ∧ index.toNat < c.length then
    some (c.set index.toNat { c.get ⟨index.toNat, h.2⟩ with text := newText })
  else none

/-- The inline onChange handler updateTaskContent(tasks, targetId, index,
newText) together with its surrounding board lookup; none embeds the
uncaught TypeError thrown on an out-of-range index (setBoards is then never
reached, so the committed tree is the unchanged input). -/
def updateTaskContent (boards : List Board) (boardId taskId : String)
    (index : Int) (newText : String) : Option (List Board) :=
  match findIndex (fun b => b.id = boardId) boards with
  | none => some boards
  | some bi =>
    match getAt boards bi with
    | none => some boards
    | some b =>
      (updateFirstOpt
        (fun t => (setContentText t.content index newText).map (fun c2 => t.withContent c2))
        taskId b.tasks).map
        (fun r => updateAt boards bi (fun b2 => { b2 with tasks := r.1 }))

/-- The task object addNewTask builds (its id comes from Date.now(), taken
here as a parameter). -/
def newTaskObj (id : String) : Task :=
  .mk id "New Task" "Add description here" "" "medium" [] [] []

/-- addNewTask(boardId): append a fresh default task to the board's
top-level task list. -/
def addNewTask (boards : List Board) (boardId newId : String) : List Board :=
  modifyTasksAtBoard boards boardId (fun ts => ts ++ [newTaskObj newId])

/-- handleTaskDrop(e, targetBoardId, targetTaskId) on the drag payload:
no-op when the target task is the dragged task itself; abort (the deep
clone is discarded) when the source board, the source task within it, or
the target board cannot be found; otherwise remove the source task from
the source board and append it to the target task's subtasks (first
depth-first match in the target board, the not-found boolean discarded)
or to the target board's top-level tasks. -/
def handleTaskDrop (boards : List Board) (targetBoardId : String)
    (targetTaskId : Option String) (drag : DragData) : List Board :=
  if targetTaskId = some drag.taskId then boards
  else
    match findIndex (fun b => b.id = drag.boardId) boards with
    | none => boards
    | some si =>
      match getAt boards si with
      | none => boards
      | some sb =>
        match removeFirst drag.taskId sb.tasks with
        | (none, _) => boards
        | (some moved, ts2) =>
          let boards1 := updateAt boards si (fun b => { b with tasks := ts2 })
          match findIndex (fun b => b.id = targetBoardId) boards1 with
          | none => boards
          | some ti =>
            match targetTaskId with
            | some tid =>
              updateAt boards1 ti
                (fun b => { b with tasks := (updateFirst (fun t => t.pushSubtask moved) tid b.tasks).1 })
            | none =>
              updateAt boards1 ti (fun b => { b with tasks := b.tasks ++ [moved] })

/-- The board-list observables C9 is about: everything of a board except
its task forest. -/
def skeleton (boards : List Board) : List (String × String × String × Nat) :=
  boards.map (fun b => (b.id, b.title, b.color, b.order))

/-- Total task count of the whole tree. -/
def totalSize (boards : List Board) : Nat :=
  (boards.map (fun b => sizeForest b.tasks)).sum

/-- Occurrences of a task id anywhere in the whole tree. -/
def totalOcc (boards : List Board) (tid : String) : Nat :=
  (boards.map (fun b => occCount tid b.tasks)).sum

/-! ## Structural induction over task forests -/

/-- Induction over a task forest: the step case gets the inductive
hypothesis both for the head task's subtasks and for the remaining
siblings. -/
theorem forest_induction (P : List Task → Prop)
    (hnil : P [])
    (hcons : ∀ i t d dd p tg s c ts, P s → P ts → P (Task.mk i t d dd p tg s c :: ts)) :
    ∀ ts, P ts
  | [] => hnil
  | .mk i t d dd p tg s c :: ts =>
    hcons i t d dd p tg s c ts
      (forest_induction P hnil hcons s) (forest_induction P hnil hcons ts)

/-! ## Behaviour of the depth-first walks -/

theorem removeFirst_spec (tid : String) : ∀ ts : List Task,
    ((removeFirst tid ts).1 = none →
      (removeFirst tid ts).2 = ts ∧ findFirst tid ts = none ∧ occCount tid ts = 0) ∧
    (∀ t ts2, removeFirst tid ts = (some t, ts2) →
      t.id = tid ∧ findFirst tid ts = some t ∧
      sizeForest ts = 1 + sizeForest t.subtasks + sizeForest ts2 ∧
      occCount tid ts = 1 + occCount tid t.subtasks + occCount tid ts2) := by
  refine forest_induction _ ?_ ?_
  · constructor
    · intro _
      refine ⟨by simp [removeFirst], by simp [findFirst], by simp [occCount]⟩
    · intro t ts2 h; simp [removeFirst] at h
  · intro i t d dd p tg s c ts ihs ihts
    by_cases hid : i = tid
    · constructor
      · intro h; simp [removeFirst, hid] at h
      · intro r rs2 h
        simp only [removeFirst, if_pos hid, Prod.mk.injEq, Option.some.injEq] at h
        obtain ⟨h1, h2⟩ := h
        subst h1; subst h2
        refine ⟨hid, ?_, ?_, ?_⟩
        · simp [findFirst, hid]
        · simp [sizeForest, Task.subtasks]
        · simp [occCount, hid, Task.subtasks]
    · cases hsub : removeFirst tid s with
      | mk ro rs =>
        cases ro with
        | some r =>
          obtain ⟨hr1, hr2, hr3, hr4⟩ := (ihs.2 r rs hsub)
          constructor
          · intro h
            simp [removeFirst, if_neg hid, hsub] at h
          · intro r2 rs2 h
            simp only [removeFirst, if_neg hid, hsub, Prod.mk.injEq,
              Option.some.injEq] at h
            obtain ⟨h1, h2⟩ := h
            subst h1; subst h2
            refine ⟨hr1, ?_, ?_, ?_⟩
            · simp [findFirst, hid, hr2]
            · simp only [sizeForest, Task.subtasks] at hr3 ⊢
              omega
            · simp only [occCount, Task.subtasks] at hr4 ⊢
              omega
        | none =>
          obtain ⟨he1, he2, he3⟩ := ihs.1 (by rw [hsub])
          rw [hsub] at he1; simp only at he1
          subst he1
          cases hrest : removeFirst tid ts with
          | mk ro2 rs3 =>
            constructor
            · intro h
              simp only [removeFirst, if_neg hid, hsub, hrest] at h ⊢
              subst h
              obtain ⟨g1, g2, g3⟩ := ihts.1 (by rw [hrest])
              rw [hrest] at g1; simp only at g1
              subst g1
              refine ⟨rfl, ?_, ?_⟩
              · simp [findFirst, hid, he2, g2]
              · simp [occCount, hid, he3, g3]
            · intro r2 rs2 h
              simp only [removeFirst, if_neg hid, hsub, hrest, Prod.mk.injEq] at h
              obtain ⟨h1, h2⟩ := h
              subst h1; subst h2
              obtain ⟨g1, g2, g3, g4⟩ := ihts.2 r2 rs3 hrest
              refine ⟨g1, ?_, ?_, ?_⟩
              · simp [findFirst, hid, he2, g2]
              · simp only [sizeForest] at g3 ⊢
                omega
              · simp only [occCount] at g4 ⊢
                omega

theorem updateFirst_spec (f : Task → Task) (tid : String) : ∀ ts : List Task,
    (findFirst tid ts = none → updateFirst f tid ts = (ts, false)) ∧
    (∀ t, findFirst tid ts = some t →
      (updateFirst f tid ts).2 = true ∧
      (f t = t → (updateFirst f tid ts).1 = ts)) := by
  refine forest_induction _ ?_ ?_
  · exact ⟨fun _ => by simp [updateFirst], fun t h => by simp [findFirst] at h⟩
  · intro i t d dd p tg s c ts ihs ihts
    by_cases hid : i = tid
    · subst hid
      refine ⟨fun h => by simp [findFirst] at h, ?_⟩
      intro r hr
      simp [findFirst] at hr
      subst hr
      refine ⟨by simp [updateFirst], fun hfix => ?_⟩
      simp [updateFirst, hfix]
    · cases hfs : findFirst tid s with
      | some r =>
        obtain ⟨hb, hfx⟩ := ihs.2 r hfs
        cases hu : updateFirst f tid s with
        | mk s2 b =>
          rw [hu] at hb; simp only at hb
          subst hb
          constructor
          · intro h; simp [findFirst, hid, hfs] at h
          · intro r2 hr2
            simp only [findFirst, if_neg hid, hfs, Option.some.injEq] at hr2
            subst hr2
            refine ⟨by simp [updateFirst, if_neg hid, hu], fun hfix => ?_⟩
            have hs2 : s2 = s := by
              have := hfx hfix; rw [hu] at this; exact this
            simp [updateFirst, if_neg hid, hu, hs2]
      | none =>
        have hus : updateFirst f tid s = (s, false) := ihs.1 hfs
        cases hur : updateFirst f tid ts with
        | mk ts2 b2 =>
          constructor
          · intro h
            simp only [findFirst, if_neg hid, hfs] at h
            have := ihts.1 h
            rw [hur] at this
            simp only [Prod.mk.injEq] at this
            simp [updateFirst, if_neg hid, hus, hur, this.1, this.2]
          · intro r2 hr2
            simp only [findFirst, if_neg hid, hfs] at hr2
            obtain ⟨hb, hfx⟩ := ihts.2 r2 hr2
            rw [hur] at hb; simp only at hb
            subst hb
            refine ⟨by simp [updateFirst, if_neg hid, hus, hur], fun hfix => ?_⟩
            have : ts2 = ts := by
              have := hfx hfix; rw [hur] at this; exact this
            simp [updateFirst, if_neg hid, hus, hur, this]

theorem updateFirstOpt_spec (f : Task → Option Task) (tid : String) : ∀ ts : List Task,
    (findFirst tid ts = none → updateFirstOpt f tid ts = some (ts, false)) ∧
    (∀ t, findFirst tid ts = some t → f t = none → updateFirstOpt f tid ts = none) := by
  refine forest_induction _ ?_ ?_
  · exact ⟨fun _ => by simp [updateFirstOpt], fun t h => by simp [findFirst] at h⟩
  · intro i t d dd p tg s c ts ihs ihts
    by_cases hid : i = tid
    · subst hid
      refine ⟨fun h => by simp [findFirst] at h, ?_⟩
      intro r hr hthrow
      simp [findFirst] at hr
      subst hr
      simp [updateFirstOpt, hthrow]
    · cases hfs : findFirst tid s with
      | some r =>
        refine ⟨fun h => by simp [findFirst, hid, hfs] at h, ?_⟩
        intro r2 hr2 hthrow
        simp only [findFirst, if_neg hid, hfs, Option.some.injEq] at hr2
        subst hr2
        have := ihs.2 r hfs hthrow
        simp [updateFirstOpt, if_neg hid, this]
      | none =>
        have hus : updateFirstOpt f tid s = some (s, false) := ihs.1 hfs
        constructor
        · intro h
          simp only [findFirst, if_neg hid, hfs] at h
          have := ihts.1 h
          simp [updateFirstOpt, if_neg hid, hus, this]
        · intro r2 hr2 hthrow
          simp only [findFirst, if_neg hid, hfs] at hr2
          have := ihts.2 r2 hr2 hthrow
          simp [updateFirstOpt, if_neg hid, hus, this]

/-! ## List helper lemmas -/

theorem findIndex_getAt (p : α → Bool) :
    ∀ (l : List α) (i : Nat), findIndex p l = some i →
      ∃ a, getAt l i = some a ∧ p a = true := by
  intro l
  induction l with
  | nil => intro i h; simp [findIndex] at h
  | cons a as ih =>
    intro i h
    cases hpa : p a with
    | true =>
      simp [findIndex, hpa] at h
      subst h
      exact ⟨a, rfl, hpa⟩
    | false =>
      simp [findIndex, hpa] at h
      obtain ⟨j, hj, hji⟩ := h
      subst hji
      obtain ⟨x, hx, hpx⟩ := ih j hj
      exact ⟨x, hx, hpx⟩

theorem findIndex_congr (p : α → Bool) (f : α → α) (hp : ∀ a, p (f a) = p a) :
    ∀ (l : List α) (i : Nat), findIndex p (updateAt l i f) = findIndex p l := by
  intro l
  induction l with
  | nil => intro i; rfl
  | cons a as ih =>
    intro i
    cases i with
    | zero => simp [updateAt, findIndex, hp]
    | succ n => simp [updateAt, findIndex, ih n]

theorem getAt_perm : ∀ (l : List α) (i : Nat) (a : α), getAt l i = some a →
    l.Perm (a :: eraseAt l i) := by
  intro l
  induction l with
  | nil => intro i a h; simp [getAt] at h
  | cons b as ih =>
    intro i a h
    cases i with
    | zero =>
      simp only [getAt, Option.some.injEq] at h
      subst h
      simp [eraseAt]
    | succ n =>
      simp only [getAt] at h
      have h1 := List.Perm.cons b (ih n a h)
      have h2 := List.Perm.swap a b (eraseAt as n)
      simp only [eraseAt]
      exact h1.trans h2

theorem insertAt_perm (x : α) : ∀ (l : List α) (n : Nat),
    (insertAt l n x).Perm (x :: l) := by
  intro l
  induction l with
  | nil => intro n; cases n <;> simp [insertAt]
  | cons a as ih =>
    intro n
    cases n with
    | zero => simp [insertAt]
    | succ m =>
      exact (List.Perm.cons a (ih m)).trans (List.Perm.swap x a as)

theorem map_insertAt (f : α → β) (x : α) : ∀ (l : List α) (n : Nat),
    (insertAt l n x).map f = insertAt (l.map f) n (f x) := by
  intro l
  induction l with
  | nil => intro n; cases n <;> simp [insertAt]
  | cons a as ih =>
    intro n
    cases n with
    | zero => simp [insertAt]
    | succ m => simp [insertAt, ih m]

theorem map_eraseAt (f : α → β) : ∀ (l : List α) (n : Nat),
    (eraseAt l n).map f = eraseAt (l.map f) n := by
  intro l
  induction l with
  | nil => intro n; simp [eraseAt]
  | cons a as ih =>
    intro n
    cases n with
    | zero => simp [eraseAt]
    | succ m => simp [eraseAt, ih m]

theorem map_updateAt_invariant (g : α → β) (f : α → α) (hf : ∀ a, g (f a) = g a) :
    ∀ (l : List α) (i : Nat), (updateAt l i f).map g = l.map g := by
  intro l
  induction l with
  | nil => intro i; rfl
  | cons a as ih =>
    intro i
    cases i with
    | zero => simp [updateAt, hf]
    | succ n => simp [updateAt, ih n]

theorem sum_map_updateAt (m : α → Nat) (f : α → α) :
    ∀ (l : List α) (k : Nat) (b : α), getAt l k = some b →
      ((updateAt l k f).map m).sum + m b = (l.map m).sum + m (f b) := by
  intro l
  induction l with
  | nil => intro k b h; simp [getAt] at h
  | cons a as ih =>
    intro k b h
    cases k with
    | zero =>
      simp only [getAt, Option.some.injEq] at h
      subst h
      simp [updateAt]
      omega
    | succ n =>
      simp only [getAt] at h
      have := ih n b h
      simp only [updateAt, List.map_cons, List.sum_cons]
      omega

theorem getAt_of_findIndex (p : α → Bool) (l : List α) (i : Nat)
    (h : findIndex p l = some i) : ∃ a, getAt l i = some a ∧ p a = true :=
  findIndex_getAt p l i h

theorem renumber_ids : ∀ (bs : List Board) (n : Nat),
    (renumber n bs).map Board.id = bs.map Board.id := by
  intro bs
  induction bs with
  | nil => intro n; rfl
  | cons b bs ih => intro n; simp [renumber, ih]

theorem renumber_orders : ∀ (bs : List Board) (n : Nat),
    (renumber n bs).map Board.order = List.range' n bs.length := by
  intro bs
  induction bs with
  | nil => intro n; simp [renumber]
  | cons b bs ih => intro n; simp [renumber, ih, List.range'_succ]

/-! ## Heap embedding for the aliasing claim (C3)

The pure embedding above records only the values of trees, so it cannot
express which JS objects are shared between the pre- and post-operation
snapshots.  For the claim about in-place mutation we embed the JS heap
explicitly: task objects live in a store addressed by naturals, a task
object's subtasks field holds addresses, and a board holds the addresses
of its top-level task objects.  updateTaskTitle in App.js copies only the
outer boards array (newBoards = a shallow copy of boards) and then assigns
tasks[i].title on the found task object, i.e. it mutates the store at that
object's address while both snapshots keep pointing at it. -/

/-- A JS task object in the heap; subtasks holds heap addresses. -/
structure TaskObj where
  id : String
  title : String
  description : String
  dueDate : String
  priority : String
  tags : List String
  subtasks : List Nat
  content : List ContentItem
deriving DecidableEq, Repr

/-- A JS board object; tasks holds the addresses of its top-level tasks. -/
structure BoardObj where
  id : String
  title : String
  color : String
  order : Nat
  tasks : List Nat
deriving DecidableEq, Repr

/-- The task-object store: an association of addresses to task objects. -/
def Heap := List (Nat × TaskObj)

/-- Dereference an address (first binding wins). -/
def hGet : Heap → Nat → Option TaskObj
  | [], _ => none
  | (a, o) :: h, b => if a = b then some o else hGet h b

/-- Overwrite the object at an address (first binding wins); a JS reference
always dereferences, so an absent address never arises from a real heap. -/
def hSet : Heap → Nat → TaskObj → Heap
  | [], _, _ => []
  | (a, o) :: h, b, o2 => if a = b then (a, o2) :: h else (a, o) :: hSet h b o2

/-- The heap-level rendering of the updateTitle / updatePriority walk:
depth-first over task addresses, mutating the first object whose id
matches by applying g to it in place.  The fuel bounds the recursion
depth (the JS recursion terminates because app heaps are finite and
acyclic); all theorems below hold for every fuel. -/
def updFirstH (g : TaskObj → TaskObj) (tid : String) :
    Nat → Heap → List Nat → Heap × Bool
  | _, h, [] => (h, false)
  | 0, h, _ :: _ => (h, false)
  | fuel + 1, h, a :: rest =>
    match hGet h a with
    | none => updFirstH g tid (fuel + 1) h rest
    | some o =>
      if o.id = tid then (hSet h a (g o), true)
      else
        match updFirstH g tid fuel h o.subtasks with
        | (h2, true) => (h2, true)
        | (_, false) => updFirstH g tid (fuel + 1) h rest
termination_by fuel _ roots => (fuel, roots.length)

/-- updateTaskTitle at the heap level: shallow-copy the boards array (the
same address list), find the board, walk its task addresses and mutate the
found task object's title in place. -/
def updateTaskTitleH (h : Heap) (boards : List BoardObj)
    (boardId taskId newTitle : String) (fuel : Nat) : Heap × List BoardObj :=
  match findIndex (fun b => b.id = boardId) boards with
  | none => (h, boards)
  | some bi =>
    match getAt boards bi with
    | none => (h, boards)
    | some b =>
      ((updFirstH (fun o => { o with title := newTitle }) taskId fuel h b.tasks).1,
       boards)

/-- updateTaskPriority at the heap level (same walk, priority field). -/
def updateTaskPriorityH (h : Heap) (boards : List BoardObj)
    (boardId taskId priority : String) (fuel : Nat) : Heap × List BoardObj :=
  match findIndex (fun b => b.id = boardId) boards with
  | none => (h, boards)
  | some bi =>
    match getAt boards bi with
    | none => (h, boards)
    | some b =>
      ((updFirstH (fun o => { o with priority := priority }) taskId fuel h b.tasks).1,
       boards)

/-! ## JSON embedding for the persistence claim (C8)

saveToLocalStorage stores JSON.stringify(data) under a key and
loadFromLocalStorage returns JSON.parse of the stored string.  The
stringify/parse pair is the browser's primitive and is inverse on JSON
values, so the store is modelled as holding the JSON value itself; the
encoders below spell out the JSON shape of the board tree (every defined
field in object order) and the decoders read those fields back the way the
application consumes a parsed snapshot. -/

/-- A JSON value (numbers restricted to integers, which covers every
numeric field of the persisted tree: board order). -/
inductive Json : Type where
  | null : Json
  | jbool (b : Bool) : Json
  | jnum (n : Int) : Json
  | jstr (s : String) : Json
  | jarr (elems : List Json) : Json
  | jobj (fields : List (String × Json)) : Json

/-- JSON of a content item. -/
def contentToJson (c : ContentItem) : Json :=
  .jobj [("type", .jstr c.type), ("text", .jstr c.text)]

mutual

/-- JSON of a task (all eight defined fields, in object order). -/
def taskToJson : Task → Json
  | .mk i t d dd p tg s c =>
    .jobj [("id", .jstr i), ("title", .jstr t), ("description", .jstr d),
           ("dueDate", .jstr dd), ("priority", .jstr p),
           ("tags", .jarr (tg.map Json.jstr)),
           ("subtasks", .jarr (taskListToJson s)),
           ("content", .jarr (c.map contentToJson))]

/-- JSON of a task forest. -/
def taskListToJson : List Task → List Json
  | [] => []
  | t :: ts => taskToJson t :: taskListToJson ts

end

/-- JSON of a board (all five defined fields, in object order). -/
def boardToJson (b : Board) : Json :=
  .jobj [("id", .jstr b.id), ("title", .jstr b.title), ("color", .jstr b.color),
         ("order", .jnum (b.order : Int)),
         ("tasks", .jarr (taskListToJson b.tasks))]

/-- JSON of the whole tree: a single array of boards. -/
def treeToJson (bs : List Board) : Json :=
  .jarr (bs.map boardToJson)

/-- Read back a content item. -/
def contentOfJson : Json → Option ContentItem
  | .jobj [("type", .jstr ty), ("text", .jstr tx)] => some ⟨ty, tx⟩
  | _ => none

/-- Read back a list of strings. -/
def strListOfJson : List Json → Option (List String)
  | [] => some []
  | .jstr s :: js => (strListOfJson js).map (fun l => s :: l)
  | _ => none

/-- Read back a content list. -/
def contentListOfJson : List Json → Option (List ContentItem)
  | [] => some []
  | j :: js =>
    match contentOfJson j, contentListOfJson js with
    | some c, some cs => some (c :: cs)
    | _, _ => none

mutual

/-- Read back a task from its JSON object. -/
def taskOfJson : Json → Option Task
  | .jobj [("id", .jstr i), ("title", .jstr t), ("description", .jstr d),
           ("dueDate", .jstr dd), ("priority", .jstr p),
           ("tags", .jarr tg), ("subtasks", .jarr s), ("content", .jarr c)] =>
    match strListOfJson tg, taskListOfJson s, contentListOfJson c with
    | some tg2, some s2, some c2 => some (.mk i t d dd p tg2 s2 c2)
    | _, _, _ => none
  | _ => none

/-- Read back a task forest. -/
def taskListOfJson : List Json → Option (List Task)
  | [] => some []
  | j :: js =>
    match taskOfJson j, taskListOfJson js with
    | some t, some ts => some (t :: ts)
    | _, _ => none

end

/-- Read back a board from its JSON object. -/
def boardOfJson : Json → Option Board
  | .jobj [("id", .jstr i), ("title", .jstr t), ("color", .jstr col),
           ("order", .jnum o), ("tasks", .jarr ts)] =>
    if 0 ≤ o then
      (taskListOfJson ts).map (fun ts2 => ⟨i, t, col, o.toNat, ts2⟩)
    else none
  | _ => none

/-- Read back a board list. -/
def boardListOfJson : List Json → Option (List Board)
  | [] => some []
  | j :: js =>
    match boardOfJson j, boardListOfJson js with
    | some b, some bs => some (b :: bs)
    | _, _ => none

/-- Read back the whole tree. -/
def treeOfJson : Json → Option (List Board)
  | .jarr js => boardListOfJson js
  | _ => none

/-- localStorage.setItem: overwrite any prior value under the key. -/
def lsSet : List (String × Json) → String → Json → List (String × Json)
  | [], k, v => [(k, v)]
  | (k2, v2) :: st, k, v =>
    if k2 = k then (k, v) :: st else (k2, v2) :: lsSet st k v

/-- localStorage.getItem (null for a missing key). -/
def lsGet : List (String × Json) → String → Option Json
  | [], _ => none
  | (k2, v2) :: st, k => if k2 = k then some v2 else lsGet st k

/-- saveToLocalStorage(key, data): store the serialized tree. -/
def saveToLocalStorage (store : List (String × Json)) (key : String)
    (bs : List Board) : List (String × Json) :=
  lsSet store key (treeToJson bs)

/-- loadFromLocalStorage(key): parse the stored snapshot back into a tree
(none for a missing key or an unreadable value). -/
def loadFromLocalStorage (store : List (String × Json)) (key : String) :
    Option (List Board) :=
  (lsGet store key).bind treeOfJson

/-! ## Heap lemmas -/

theorem hGet_hSet_ne : ∀ (h : Heap) (a b : Nat) (o : TaskObj), a ≠ b →
    hGet (hSet h a o) b = hGet h b := by
  intro h
  induction h with
  | nil => intro a b o hab; rfl
  | cons p rest ih =>
    intro a b o hab
    obtain ⟨k, v⟩ := p
    by_cases hk : k = a
    · subst hk
      simp [hSet, hGet, hab]
    · simp only [hSet, if_neg hk]
      by_cases hkb : k = b
      · simp [hGet, hkb]
      · simp [hGet, hkb, ih a b o hab]

theorem hGet_hSet_self : ∀ (h : Heap) (a : Nat) (o o2 : TaskObj),
    hGet h a = some o → hGet (hSet h a o2) a = some o2 := by
  intro h
  induction h with
  | nil => intro a o o2 hg; simp [hGet] at hg
  | cons p rest ih =>
    intro a o o2 hg
    obtain ⟨k, v⟩ := p
    by_cases hk : k = a
    · subst hk
      simp [hSet, hGet]
    · simp only [hGet, if_neg hk] at hg
      simp [hSet, hGet, hk, ih a o o2 hg]

theorem updFirstH_spec (g : TaskObj → TaskObj) (tid : String) :
    ∀ (fuel : Nat) (roots : List Nat) (h : Heap),
      updFirstH g tid fuel h roots = (h, false) ∨
      ∃ a o, hGet h a = some o ∧ o.id = tid ∧
        updFirstH g tid fuel h roots = (hSet h a (g o), true) := by
  intro fuel
  induction fuel with
  | zero =>
    intro roots h
    cases roots with
    | nil => left; simp [updFirstH]
    | cons a rest => left; simp [updFirstH]
  | succ n ihf =>
    intro roots
    induction roots with
    | nil => intro h; left; simp [updFirstH]
    | cons a rest ihr =>
      intro h
      cases hga : hGet h a with
      | none =>
        rcases ihr h with h1 | ⟨a2, o2, g1, g2, g3⟩
        · left; simp [updFirstH, hga, h1]
        · right; exact ⟨a2, o2, g1, g2, by simp [updFirstH, hga, g3]⟩
      | some o =>
        by_cases hid : o.id = tid
        · right
          exact ⟨a, o, hga, hid, by simp [updFirstH, hga, hid]⟩
        · rcases ihf o.subtasks h with h1 | ⟨a2, o2, g1, g2, g3⟩
          · rcases ihr h with h2 | ⟨a3, o3, k1, k2, k3⟩
            · left; simp [updFirstH, hga, hid, h1, h2]
            · right; exact ⟨a3, o3, k1, k2, by simp [updFirstH, hga, hid, h1, k3]⟩
          · right; exact ⟨a2, o2, g1, g2, by simp [updFirstH, hga, hid, g3]⟩

/-! ## JSON roundtrip lemmas -/

theorem strListOfJson_roundtrip : ∀ l : List String,
    strListOfJson (l.map Json.jstr) = some l := by
  intro l
  induction l with
  | nil => rfl
  | cons s ss ih => simp [strListOfJson, ih]

theorem contentOfJson_roundtrip (c : ContentItem) :
    contentOfJson (contentToJson c) = some c := by
  obtain ⟨ty, tx⟩ := c
  rfl

theorem contentListOfJson_roundtrip : ∀ l : List ContentItem,
    contentListOfJson (l.map contentToJson) = some l := by
  intro l
  induction l with
  | nil => rfl
  | cons c cs ih => simp [contentListOfJson, contentOfJson_roundtrip, ih]

theorem taskListOfJson_roundtrip : ∀ ts : List Task,
    taskListOfJson (taskListToJson ts) = some ts := by
  refine forest_induction _ ?_ ?_
  · rfl
  · intro i t d dd p tg s c ts ihs ihts
    simp [taskListToJson, taskListOfJson, taskToJson, taskOfJson,
      strListOfJson_roundtrip, contentListOfJson_roundtrip, ihs, ihts]

theorem boardOfJson_roundtrip (b : Board) :
    boardOfJson (boardToJson b) = some b := by
  obtain ⟨i, t, col, o, ts⟩ := b
  simp [boardToJson, boardOfJson, taskListOfJson_roundtrip]

theorem boardListOfJson_roundtrip : ∀ bs : List Board,
    boardListOfJson (bs.map boardToJson) = some bs := by
  intro bs
  induction bs with
  | nil => rfl
  | cons b rest ih => simp [boardListOfJson, boardOfJson_roundtrip, ih]

theorem lsGet_lsSet_self : ∀ (st : List (String × Json)) (k : String) (v : Json),
    lsGet (lsSet st k v) k = some v := by
  intro st
  induction st with
  | nil => intro k v; simp [lsSet, lsGet]
  | cons p rest ih =>
    intro k v
    obtain ⟨k2, v2⟩ := p
    by_cases hk : k2 = k
    · simp [lsSet, lsGet, hk]
    · simp [lsSet, lsGet, hk, ih k v]

/-! ## Derived helper lemmas -/

theorem removeFirst_of_occ_zero (tid : String) (ts : List Task)
    (h : occCount tid ts = 0) : removeFirst tid ts = (none, ts) := by
  cases hrf : removeFirst tid ts with
  | mk r ts2 =>
    cases r with
    | none =>
      have := (removeFirst_spec tid ts).1 (by rw [hrf])
      rw [hrf] at this
      simp only at this
      rw [this.1]
    | some t =>
      have := ((removeFirst_spec tid ts).2 t ts2 hrf).2.2.2
      omega

theorem removeFirst_of_findFirst_some (tid : String) (ts : List Task) (t : Task)
    (h : findFirst tid ts = some t) :
    ∃ ts2, removeFirst tid ts = (some t, ts2) := by
  cases hrf : removeFirst tid ts with
  | mk r ts2 =>
    cases r with
    | none =>
      have := ((removeFirst_spec tid ts).1 (by rw [hrf])).2.1
      rw [this] at h
      exact absurd h (by simp)
    | some t2 =>
      have := ((removeFirst_spec tid ts).2 t2 ts2 hrf).2.1
      rw [this] at h
      injection h with h2
      subst h2
      exact ⟨ts2, rfl⟩

theorem sum_map_getAt_le (m : α → Nat) : ∀ (l : List α) (k : Nat) (b : α),
    getAt l k = some b → m b ≤ (l.map m).sum := by
  intro l
  induction l with
  | nil => intro k b h; simp [getAt] at h
  | cons a as ih =>
    intro k b h
    cases k with
    | zero =>
      simp only [getAt, Option.some.injEq] at h
      subst h
      simp
    | succ n =>
      simp only [getAt] at h
      have := ih n b h
      simp only [List.map_cons, List.sum_cons]
      omega

theorem eraseAt_ge_length : ∀ (l : List α) (n : Nat), l.length ≤ n →
    eraseAt l n = l := by
  intro l
  induction l with
  | nil => intro n _; rfl
  | cons a as ih =>
    intro n h
    cases n with
    | zero => simp at h
    | succ m =>
      simp only [List.length_cons] at h
      simp [eraseAt, ih m (by omega)]

theorem updateAt_self (f : α → α) : ∀ (l : List α) (k : Nat) (b : α),
    getAt l k = some b → f b = b → updateAt l k f = l := by
  intro l
  induction l with
  | nil => intro k b h _; simp [getAt] at h
  | cons a as ih =>
    intro k b h hf
    cases k with
    | zero =>
      simp only [getAt, Option.some.injEq] at h
      subst h
      simp [updateAt, hf]
    | succ n =>
      simp only [getAt] at h
      simp [updateAt, ih n b h hf]

theorem withContent_self : ∀ t : Task, t.withContent t.content = t := by
  intro t
  cases t with
  | mk i ti d dd p tg s c => rfl

theorem insertAt_length (x : α) : ∀ (l : List α) (n : Nat),
    (insertAt l n x).length = l.length + 1 := by
  intro l
  induction l with
  | nil => intro n; cases n <;> simp [insertAt]
  | cons a as ih =>
    intro n
    cases n with
    | zero => simp [insertAt]
    | succ m => simp [insertAt, ih m]

theorem eraseAt_length : ∀ (l : List α) (i : Nat) (a : α),
    getAt l i = some a → (eraseAt l i).length + 1 = l.length := by
  intro l
  induction l with
  | nil => intro i a h; simp [getAt] at h
  | cons b as ih =>
    intro i a h
    cases i with
    | zero => simp [eraseAt]
    | succ n =>
      simp only [getAt] at h
      simp only [eraseAt, List.length_cons]
      rw [← ih n a h]

theorem renumber_length : ∀ (bs : List Board) (n : Nat),
    (renumber n bs).length = bs.length := by
  intro bs
  induction bs with
  | nil => intro n; rfl
  | cons b rest ih => intro n; simp [renumber, ih]

theorem skeleton_updateAt_tasks (g : Board → List Task) :
    ∀ (bs : List Board) (i : Nat),
      skeleton (updateAt bs i (fun b => { b with tasks := g b })) = skeleton bs := by
  intro bs i
  unfold skeleton
  exact map_updateAt_invariant (fun b => (b.id, b.title, b.color, b.order))
    (fun b => { b with tasks := g b }) (fun b => rfl) bs i

theorem skeleton_modifyTasks (bs : List Board) (bid : String)
    (g : List Task → List Task) :
    skeleton (modifyTasksAtBoard bs bid g) = skeleton bs := by
  unfold modifyTasksAtBoard
  cases findIndex (fun b => b.id = bid) bs with
  | none => rfl
  | some bi => exact skeleton_updateAt_tasks (fun b => g b.tasks) bs bi

theorem updFirstH_frame (g : TaskObj → TaskObj) (tid : String)
    (fuel : Nat) (roots : List Nat) (h : Heap) (addr : Nat) :
    hGet (updFirstH g tid fuel h roots).1 addr = hGet h addr ∨
    ∃ o, hGet h addr = some o ∧ o.id = tid ∧
      hGet (updFirstH g tid fuel h roots).1 addr = some (g o) := by
  rcases updFirstH_spec g tid fuel roots h with h1 | ⟨a, o, g1, g2, g3⟩
  · left; rw [h1]
  · by_cases ha : a = addr
    · subst ha
      right
      exact ⟨o, g1, g2, by rw [g3]; exact hGet_hSet_self h a o (g o) g1⟩
    · left
      rw [g3]
      exact hGet_hSet_ne h a addr (g o) ha

/-! ## Concrete example trees used by witnesses and counterexamples -/

/-- A leaf task with id D. -/
def taskD : Task := .mk "D" "Leaf" "" "" "medium" [] [] []

/-- A task A whose only subtask is D. -/
def taskA : Task := .mk "A" "Parent" "" "" "medium" [] [taskD] []

/-- A board holding A (with D nested below it). -/
def boardB1 : Board := ⟨"b1", "To Do", "bg-red-500", 0, [taskA]⟩

/-- One-board tree with a two-level task chain. -/
def demoCycle : List Board := [boardB1]

/-- A plain task. -/
def taskT1 : Task := .mk "t1" "Task One" "" "" "medium" [] [] []

/-- A board holding the plain task. -/
def boardG1 : Board := ⟨"g1", "Ghost", "bg-blue-500", 0, [taskT1]⟩

/-- One-board tree with a single task. -/
def demoGhost : List Board := [boardG1]

/-- Board p, holding the task t1. -/
def boardP : Board := ⟨"p", "P", "bg-red-500", 0, [taskT1]⟩

/-- Board q, empty. -/
def boardQ : Board := ⟨"q", "Q", "bg-green-500", 1, []⟩

/-- Two boards: t1 lives on p, while q is empty. -/
def demoStale : List Board := [boardP, boardQ]

/-- Boards x, y, z in display order, used for reorder examples. -/
def boardX : Board := ⟨"x", "X", "bg-red-500", 0, []⟩

/-- Second reorder board. -/
def boardY : Board := ⟨"y", "Y", "bg-green-500", 1, []⟩

/-- Third reorder board. -/
def boardZ : Board := ⟨"z", "Z", "bg-blue-500", 2, []⟩

/-- Three-board tree for reorder examples. -/
def demoReorder : List Board := [boardX, boardY, boardZ]

/-- A task with exactly one content item. -/
def taskC : Task := .mk "C" "Content" "" "" "medium" [] [] [⟨"bullet", "only"⟩]

/-- A board holding the content task. -/
def boardBC : Board := ⟨"bc", "BC", "bg-red-500", 0, [taskC]⟩

/-- One-board tree for the content-index examples. -/
def demoContent : List Board := [boardBC]

/-- A heap task object with title Old. -/
def heapObj : TaskObj := ⟨"ht", "Old", "", "", "medium", [], [], []⟩

/-- A heap with that single object at address 0. -/
def heap0 : Heap := [(0, heapObj)]

/-- A board object whose tasks list points at address 0. -/
def boardObjH : BoardObj := ⟨"hb", "HB", "bg-red-500", 0, [0]⟩

/-- The boards array of the heap example. -/
def demoBoardsH : List BoardObj := [boardObjH]

/-! ## Claim theorems -/

/-- C1: the spec claims that a task-relocation drop whose target task lies
in the source task's own subtask subtree is rejected with the tree
unchanged.  The code has no such check: evaluating handleTaskDrop on a
board whose task A has subtask D, dropping A onto D, removes A (and D with
it) from the board and then silently fails to reinsert it, so the
committed tree has lost A's entire subtree instead of being unchanged. -/
theorem C1_cycle_drop_loses_subtree :
    (handleTaskDrop demoCycle "b1" (some "D") ⟨"b1", "A"⟩).map
        (fun b => (b.id, forestIds b.tasks)) = [("b1", [])] ∧
    demoCycle.map (fun b => (b.id, forestIds b.tasks)) = [("b1", ["A", "D"])] := by
  constructor
  · simp [handleTaskDrop, demoCycle, boardB1, taskA, taskD, removeFirst,
      updateFirst, findIndex, getAt, updateAt, forestIds, Task.pushSubtask]
  · simp [demoCycle, boardB1, taskA, taskD, forestIds]

/-- C2 counterexample: a drop whose target task id is nowhere in the tree
is a required-id lookup failure, yet the operation commits a mutated tree:
the source task has been removed and reinserted nowhere. -/
theorem C2_missing_target_task_mutates :
    handleTaskDrop demoGhost "g1" (some "ghost") ⟨"g1", "t1"⟩ ≠ demoGhost := by
  intro h
  simp [handleTaskDrop, demoGhost, boardG1, taskT1, removeFirst, updateFirst,
    findIndex, getAt, updateAt] at h

/-- C2 (amended): a relocation aborts with the prior snapshot retained
when the source board cannot be found, when the source task is absent from
the source board at every depth, or when the target board cannot be found;
a missing target task, by contrast, is not aborted (see the
counterexample). -/
theorem C2_abort_on_missing_ids :
    ∀ (bs : List Board) (tb : String) (tt : Option String) (drag : DragData),
      (findIndex (fun b => b.id = drag.boardId) bs = none →
        handleTaskDrop bs tb tt drag = bs) ∧
      (∀ si sb, findIndex (fun b => b.id = drag.boardId) bs = some si →
        getAt bs si = some sb → occCount drag.taskId sb.tasks = 0 →
        handleTaskDrop bs tb tt drag = bs) ∧
      (∀ si sb, findIndex (fun b => b.id = drag.boardId) bs = some si →
        getAt bs si = some sb →
        findIndex (fun b => b.id = tb) bs = none →
        handleTaskDrop bs tb tt drag = bs) := by
  intro bs tb tt drag
  by_cases hsame : tt = some drag.taskId
  · exact ⟨fun _ => by simp [handleTaskDrop, hsame],
      fun _ _ _ _ _ => by simp [handleTaskDrop, hsame],
      fun _ _ _ _ _ => by simp [handleTaskDrop, hsame]⟩
  · refine ⟨?_, ?_, ?_⟩
    · intro h
      simp [handleTaskDrop, hsame, h]
    · intro si sb hfi hga hocc
      have hrf := removeFirst_of_occ_zero drag.taskId sb.tasks hocc
      simp [handleTaskDrop, hsame, hfi, hga, hrf]
    · intro si sb hfi hga hnone
      cases hrf : removeFirst drag.taskId sb.tasks with
      | mk r ts2 =>
        cases r with
        | none => simp [handleTaskDrop, hsame, hfi, hga, hrf]
        | some moved =>
          have hcong := findIndex_congr (fun b : Board => b.id = tb)
            (fun b => { b with tasks := ts2 }) (fun b => rfl) bs si
          simp [handleTaskDrop, hsame, hfi, hga, hrf, hcong, hnone]

/-- C2 witness: the three abort cases at concrete inputs. -/
theorem C2_abort_on_missing_ids_witness :
    handleTaskDrop demoGhost "g1" none ⟨"nosuch", "t1"⟩ = demoGhost ∧
    handleTaskDrop demoGhost "g1" none ⟨"g1", "zz"⟩ = demoGhost ∧
    handleTaskDrop demoGhost "nosuch" none ⟨"g1", "t1"⟩ = demoGhost :=
  ⟨(C2_abort_on_missing_ids demoGhost "g1" none ⟨"nosuch", "t1"⟩).1
     (by simp [findIndex, demoGhost, boardG1]),
   (C2_abort_on_missing_ids demoGhost "g1" none ⟨"g1", "zz"⟩).2.1 0 boardG1
     (by simp [findIndex, demoGhost, boardG1]) (by rfl)
     (by simp [occCount, boardG1, taskT1]),
   (C2_abort_on_missing_ids demoGhost "nosuch" none ⟨"g1", "t1"⟩).2.2 0 boardG1
     (by simp [findIndex, demoGhost, boardG1]) (by rfl)
     (by simp [findIndex, demoGhost, boardG1])⟩

/-- C10: a task drop removes the source task only from the board named by
the drag payload's sourceBoardId; when that board exists but does not
contain the task at any depth, the whole drop is a no-op and the tree is
unchanged, even if the task exists on another board. -/
theorem C10_stale_source_board_noop :
    ∀ (bs : List Board) (tb : String) (tt : Option String) (drag : DragData)
      (si : Nat) (sb : Board),
      findIndex (fun b => b.id = drag.boardId) bs = some si →
      getAt bs si = some sb →
      occCount drag.taskId sb.tasks = 0 →
      handleTaskDrop bs tb tt drag = bs := by
  intro bs tb tt drag si sb hfi hga hocc
  by_cases hsame : tt = some drag.taskId
  · simp [handleTaskDrop, hsame]
  · have hrf := removeFirst_of_occ_zero drag.taskId sb.tasks hocc
    simp [handleTaskDrop, hsame, hfi, hga, hrf]

/-- C10 witness: t1 lives on board p, but the payload names board q; the
drop onto board p changes nothing. -/
theorem C10_stale_source_board_noop_witness :
    handleTaskDrop demoStale "p" none ⟨"q", "t1"⟩ = demoStale :=
  C10_stale_source_board_noop demoStale "p" none ⟨"q", "t1"⟩ 1 boardQ
    (by simp [findIndex, demoStale, boardP, boardQ]) (by rfl)
    (by simp [occCount, boardQ])

/-- C4: a board drop that actually reorders (both ids present and
distinct) keeps the multiset of board ids unchanged, and afterwards each
board's order field equals its index, the order values being exactly
0..n-1 in increasing sequence (so the display sort by order is the
identity and order = index-in-sorted-sequence); the id multiset is
preserved by every drop, including the no-op paths. -/
theorem C4_reorder_board_invariants :
    ∀ (bs : List Board) (src tgt : String),
      ((handleBoardDrop bs src tgt).map Board.id).Perm (bs.map Board.id) ∧
      (∀ di ti, src ≠ "" → src ≠ tgt →
        findIndex (fun b => b.id = src) bs = some di →
        findIndex (fun b => b.id = tgt) bs = some ti →
        (handleBoardDrop bs src tgt).map Board.order = List.range bs.length ∧
        List.Pairwise (fun a b => a.order < b.order) (handleBoardDrop bs src tgt)) := by
  intro bs src tgt
  constructor
  · by_cases h0 : src = "" ∨ src = tgt
    · simp [handleBoardDrop, h0]
    · cases hfs : findIndex (fun b => b.id = src) bs with
      | none => simp [handleBoardDrop, h0, hfs]
      | some di =>
        cases hft : findIndex (fun b => b.id = tgt) bs with
        | none => simp [handleBoardDrop, h0, hfs, hft]
        | some ti =>
          obtain ⟨dragged, hget, _⟩ := findIndex_getAt _ bs di hfs
          unfold handleBoardDrop
          rw [if_neg h0]
          simp only [hfs, hft, hget]
          rw [renumber_ids, map_insertAt, map_eraseAt]
          refine (insertAt_perm _ _ _).trans ?_
          have hm := (getAt_perm bs di dragged hget).map Board.id
          rw [List.map_cons, map_eraseAt] at hm
          exact hm.symm
  · intro di ti hne0 hnet hfs hft
    have h0 : ¬(src = "" ∨ src = tgt) := by
      intro hor
      cases hor with
      | inl h => exact hne0 h
      | inr h => exact hnet h
    obtain ⟨dragged, hget, _⟩ := findIndex_getAt _ bs di hfs
    have horders : (handleBoardDrop bs src tgt).map Board.order =
        List.range bs.length := by
      unfold handleBoardDrop
      rw [if_neg h0]
      simp only [hfs, hft, hget]
      rw [renumber_orders, insertAt_length, ← List.range_eq_range',
        eraseAt_length bs di dragged hget]
    refine ⟨horders, ?_⟩
    have hpw : List.Pairwise (· < ·)
        ((handleBoardDrop bs src tgt).map Board.order) := by
      rw [horders]; exact List.pairwise_lt_range _
    exact List.pairwise_map.1 hpw

/-- C4 witness: dropping board x onto board z in a three-board tree. -/
theorem C4_reorder_board_invariants_witness :
    ((handleBoardDrop demoReorder "x" "z").map Board.id).Perm
      (demoReorder.map Board.id) ∧
    (handleBoardDrop demoReorder "x" "z").map Board.order =
      List.range demoReorder.length ∧
    List.Pairwise (fun a b => a.order < b.order)
      (handleBoardDrop demoReorder "x" "z") :=
  ⟨(C4_reorder_board_invariants demoReorder "x" "z").1,
   ((C4_reorder_board_invariants demoReorder "x" "z").2 0 2 (by decide) (by decide)
     (by decide) (by decide)).1,
   ((C4_reorder_board_invariants demoReorder "x" "z").2 0 2 (by decide) (by decide)
     (by decide) (by decide)).2⟩

/-- C7 counterexample: with boards x, y, z (in that order), dropping x
onto z does not land x immediately before z as the claim states: the
result order is y, z, x (x lands immediately after z). -/
theorem C7_source_before_target_lands_after :
    (handleBoardDrop demoReorder "x" "z").map Board.id ≠ ["y", "x", "z"] ∧
    (handleBoardDrop demoReorder "x" "z").map Board.id = ["y", "z", "x"] := by
  exact ⟨by decide, by decide⟩

/-- C7 (amended): handleBoardDrop removes the source board and reinserts
it at the index the target board occupied before the removal — so the
source lands immediately before the target when it originally followed
it, but immediately after the target when it originally preceded it —
then renumbers order = index; it is a no-op when the ids coincide or
either id is missing. -/
theorem C7_reorder_semantics :
    ∀ (bs : List Board) (src tgt : String),
      (src = tgt → handleBoardDrop bs src tgt = bs) ∧
      (findIndex (fun b => b.id = src) bs = none → handleBoardDrop bs src tgt = bs) ∧
      (findIndex (fun b => b.id = tgt) bs = none → handleBoardDrop bs src tgt = bs) ∧
      (∀ di ti b, src ≠ "" → src ≠ tgt →
        findIndex (fun x => x.id = src) bs = some di →
        findIndex (fun x => x.id = tgt) bs = some ti →
        getAt bs di = some b →
        (handleBoardDrop bs src tgt).map Board.id =
          insertAt (eraseAt (bs.map Board.id) di) ti b.id ∧
        (handleBoardDrop bs src tgt).map Board.order = List.range bs.length) := by
  intro bs src tgt
  refine ⟨?_, ?_, ?_, ?_⟩
  · intro h; simp [handleBoardDrop, h]
  · intro h
    by_cases h0 : src = "" ∨ src = tgt
    · simp [handleBoardDrop, h0]
    · simp [handleBoardDrop, h0, h]
  · intro h
    by_cases h0 : src = "" ∨ src = tgt
    · simp [handleBoardDrop, h0]
    · cases hfs : findIndex (fun b => b.id = src) bs with
      | none => simp [handleBoardDrop, h0, hfs]
      | some di => simp [handleBoardDrop, h0, hfs, h]
  · intro di ti b hne0 hnet hfs hft hget
    have h0 : ¬(src = "" ∨ src = tgt) := by
      intro hor
      cases hor with
      | inl h => exact hne0 h
      | inr h => exact hnet h
    constructor
    · unfold handleBoardDrop
      rw [if_neg h0]
      simp only [hfs, hft, hget]
      rw [renumber_ids, map_insertAt, map_eraseAt]
    · unfold handleBoardDrop
      rw [if_neg h0]
      simp only [hfs, hft, hget]
      rw [renumber_orders, insertAt_length, ← List.range_eq_range',
        eraseAt_length bs di b hget]

/-- C7 witness: the no-op case and the active case (dropping z onto x,
where the source follows the target and lands immediately before it). -/
theorem C7_reorder_semantics_witness :
    handleBoardDrop demoReorder "x" "x" = demoReorder ∧
    (handleBoardDrop demoReorder "z" "x").map Board.id =
      insertAt (eraseAt (demoReorder.map Board.id) 2) 0 "z" ∧
    (handleBoardDrop demoReorder "z" "x").map Board.order =
      List.range demoReorder.length :=
  ⟨(C7_reorder_semantics demoReorder "x" "x").1 rfl,
   ((C7_reorder_semantics demoReorder "z" "x").2.2.2 2 0 boardZ (by decide)
     (by decide) (by decide) (by decide) (by decide)).1,
   ((C7_reorder_semantics demoReorder "z" "x").2.2.2 2 0 boardZ (by decide)
     (by decide) (by decide) (by decide) (by decide)).2⟩

/-- C5: when a task id occurs exactly once in the tree and it lives in the
board the deletion is issued against, deleteTask leaves no task with that
id anywhere in any board's forest, and the total task count shrinks by
exactly 1 plus the size of the deleted task's subtask subtree. -/
theorem C5_deleteTask_removes_subtree :
    ∀ (bs : List Board) (bid tid : String) (k : Nat) (b : Board) (t : Task),
      findIndex (fun x => x.id = bid) bs = some k →
      getAt bs k = some b →
      findFirst tid b.tasks = some t →
      totalOcc bs tid = 1 →
      totalOcc (deleteTask bs bid tid) tid = 0 ∧
      totalSize (deleteTask bs bid tid) + (1 + sizeForest t.subtasks) =
        totalSize bs := by
  intro bs bid tid k b t hfi hget hff hocc
  obtain ⟨ts2, hrf⟩ := removeFirst_of_findFirst_some tid b.tasks t hff
  have hspec := (removeFirst_spec tid b.tasks).2 t ts2 hrf
  have hoccb : occCount tid b.tasks ≤ totalOcc bs tid :=
    sum_map_getAt_le (fun x => occCount tid x.tasks) bs k b hget
  have hocc_eq := hspec.2.2.2
  have hsize_eq := hspec.2.2.1
  have hupd_occ := sum_map_updateAt (fun x => occCount tid x.tasks)
    (fun x => { x with tasks := (removeFirst tid x.tasks).2 }) bs k b hget
  have hupd_size := sum_map_updateAt (fun x => sizeForest x.tasks)
    (fun x => { x with tasks := (removeFirst tid x.tasks).2 }) bs k b hget
  simp only [hrf] at hupd_occ hupd_size
  unfold deleteTask modifyTasksAtBoard
  rw [hfi]
  dsimp only
  unfold totalOcc at hocc hoccb
  unfold totalOcc totalSize
  constructor
  · omega
  · omega

/-- C5 witness: deleting task A (with subtask D) from its board empties
the tree and the count drops by 2 = 1 + 1. -/
theorem C5_deleteTask_removes_subtree_witness :
    totalOcc (deleteTask demoCycle "b1" "A") "A" = 0 ∧
    totalSize (deleteTask demoCycle "b1" "A") + (1 + sizeForest taskA.subtasks) =
      totalSize demoCycle :=
  C5_deleteTask_removes_subtree demoCycle "b1" "A" 0 boardB1 taskA
    (by decide) (by rfl) (by simp [findFirst, boardB1, taskA])
    (by simp [totalOcc, occCount, demoCycle, boardB1, taskA, taskD])

/-- C6 counterexample: deleteContentItem with the negative index -1 on a
task with one content item is not a no-op: JS splice counts a negative
start back from the end, so the item is removed. -/
theorem C6_negative_index_deletes_content :
    deleteContentItem demoContent "C" "bc" (-1) ≠ demoContent := by
  intro h
  simp [deleteContentItem, modifyTasksAtBoard, demoContent, boardBC, taskC,
    updateFirst, findIndex, updateAt, jsSpliceDelete, eraseAt,
    Task.withContent] at h

/-- C6 (amended): for the located task, deleteContentItem with an index at
or past the content length is a no-op (a negative index instead splices
from the end, see the counterexample), and updateTaskContent with any
index outside the array bounds throws an uncaught TypeError — embedded as
none — rather than being a no-op. -/
theorem C6_content_index_out_of_range :
    ∀ (bs : List Board) (tid bid : String) (idx : Int) (txt : String)
      (k : Nat) (b : Board) (t : Task),
      findIndex (fun x => x.id = bid) bs = some k →
      getAt bs k = some b →
      findFirst tid b.tasks = some t →
      (((t.content.length : Int) ≤ idx → deleteContentItem bs tid bid idx = bs) ∧
       (¬(0 ≤ idx ∧ idx.toNat < t.content.length) →
         updateTaskContent bs bid tid idx txt = none)) := by
  intro bs tid bid idx txt k b t hfi hget hff
  constructor
  · intro hle
    unfold deleteContentItem modifyTasksAtBoard
    rw [hfi]
    apply updateAt_self _ bs k b hget
    have hnoop : jsSpliceDelete t.content idx = t.content := by
      unfold jsSpliceDelete
      have hnn : ¬(idx < 0) := by omega
      rw [if_neg hnn]
      have hmin : min idx ((t.content.length : Nat) : Int) =
          ((t.content.length : Nat) : Int) := min_eq_right hle
      rw [hmin]
      rw [Int.toNat_natCast]
      exact eraseAt_ge_length t.content t.content.length (Nat.le_refl _)
    have hfix : (fun t2 : Task =>
        t2.withContent (jsSpliceDelete t2.content idx)) t = t := by
      simp only [hnoop]
      exact withContent_self t
    have h1 := ((updateFirst_spec
      (fun t2 : Task => t2.withContent (jsSpliceDelete t2.content idx))
      tid b.tasks).2 t hff).2 hfix
    dsimp only
    rw [h1]
  · intro hout
    unfold updateTaskContent
    simp only [hfi, hget]
    have hthrow : (fun t2 : Task =>
        (setContentText t2.content idx txt).map (fun c2 => t2.withContent c2)) t
          = none := by
      have hset : setContentText t.content idx txt = none := by
        unfold setContentText
        rw [dif_neg hout]
      simp only [hset, Option.map_none']
    have h2 := (updateFirstOpt_spec
      (fun t2 : Task =>
        (setContentText t2.content idx txt).map (fun c2 => t2.withContent c2))
      tid b.tasks).2 t hff hthrow
    rw [h2]
    rfl

/-- C6 witness: index 5 past the single content item is a no-op for
delete; index 3 makes the content update throw (none). -/
theorem C6_content_index_out_of_range_witness :
    deleteContentItem demoContent "C" "bc" 5 = demoContent ∧
    updateTaskContent demoContent "bc" "C" 3 "x" = none :=
  ⟨(C6_content_index_out_of_range demoContent "C" "bc" 5 "x" 0 boardBC taskC
      (by decide) (by rfl) (by simp [findFirst, boardBC, taskC])).1 (by decide),
   (C6_content_index_out_of_range demoContent "C" "bc" 3 "x" 0 boardBC taskC
      (by decide) (by rfl) (by simp [findFirst, boardBC, taskC])).2 (by decide)⟩

/-- C9: every task-level operation — adding or deleting a task, updating
title, description, priority or due date, adding, updating or deleting a
content item, and a task-relocation drop — leaves the board list's own
structure unchanged: the number of boards and each board's id, title,
color and order are identical before and after (for the throwing content
update, the committed tree is the unchanged input, modelled by getD). -/
theorem C9_task_ops_preserve_board_skeleton :
    ∀ (bs : List Board) (bid tid nid s1 s2 s3 s4 s5 txt : String) (idx : Int)
      (tb : String) (tt : Option String) (drag : DragData),
      skeleton (addNewTask bs bid nid) = skeleton bs ∧
      skeleton (deleteTask bs bid tid) = skeleton bs ∧
      skeleton (updateTaskTitle bs bid tid s1) = skeleton bs ∧
      skeleton (updateTaskDescription bs bid tid s2) = skeleton bs ∧
      skeleton (updateTaskPriority bs bid tid s3) = skeleton bs ∧
      skeleton (setDueDate bs tid bid s4) = skeleton bs ∧
      skeleton (addContentItem bs tid bid s5) = skeleton bs ∧
      skeleton (deleteContentItem bs tid bid idx) = skeleton bs ∧
      skeleton ((updateTaskContent bs bid tid idx txt).getD bs) = skeleton bs ∧
      skeleton (handleTaskDrop bs tb tt drag) = skeleton bs := by
  intro bs bid tid nid s1 s2 s3 s4 s5 txt idx tb tt drag
  refine ⟨skeleton_modifyTasks .., skeleton_modifyTasks .., skeleton_modifyTasks ..,
    skeleton_modifyTasks .., skeleton_modifyTasks .., skeleton_modifyTasks ..,
    skeleton_modifyTasks .., skeleton_modifyTasks .., ?_, ?_⟩
  · unfold updateTaskContent
    cases hfi : findIndex (fun b => b.id = bid) bs with
    | none => rfl
    | some bi =>
      dsimp only
      cases hga : getAt bs bi with
      | none => rfl
      | some b =>
        dsimp only
        cases hopt : updateFirstOpt
            (fun t => (setContentText t.content idx txt).map
              (fun c2 => t.withContent c2)) tid b.tasks with
        | none => rfl
        | some r =>
          simp only [Option.map_some', Option.getD_some]
          exact skeleton_updateAt_tasks (fun _ => r.1) bs bi
  · unfold handleTaskDrop
    by_cases hsame : tt = some drag.taskId
    · rw [if_pos hsame]
    · rw [if_neg hsame]
      cases hfs : findIndex (fun b => b.id = drag.boardId) bs with
      | none => rfl
      | some si =>
        dsimp only
        cases hga : getAt bs si with
        | none => rfl
        | some sb =>
          dsimp only
          cases hrf : removeFirst drag.taskId sb.tasks with
          | mk r ts2 =>
            cases r with
            | none => rfl
            | some moved =>
              dsimp only
              cases hft : findIndex (fun b => b.id = tb)
                  (updateAt bs si (fun b => { b with tasks := ts2 })) with
              | none => rfl
              | some ti =>
                dsimp only
                cases tt with
                | some tid2 =>
                  exact (skeleton_updateAt_tasks
                      (fun b => (updateFirst (fun t => t.pushSubtask moved) tid2
                        b.tasks).1) _ ti).trans
                    (skeleton_updateAt_tasks (fun _ => ts2) bs si)
                | none =>
                  exact (skeleton_updateAt_tasks
                      (fun b => b.tasks ++ [moved]) _ ti).trans
                    (skeleton_updateAt_tasks (fun _ => ts2) bs si)

/-- C3 counterexample: in the heap embedding, updateTaskTitle mutates the
title field of the task object at address 0 in place; that object is
reachable from the pre-operation snapshot (the board's tasks list holds
address 0 both before and after), so a task object reachable from the
prior snapshot had a field changed, contradicting the claim. -/
theorem C3_inplace_mutation_of_shared_object :
    hGet (updateTaskTitleH heap0 demoBoardsH "hb" "ht" "New" 5).1 0 ≠
      hGet heap0 0 ∧
    (updateTaskTitleH heap0 demoBoardsH "hb" "ht" "New" 5).2 = demoBoardsH ∧
    getAt demoBoardsH 0 = some boardObjH ∧ (0 : Nat) ∈ boardObjH.tasks := by
  refine ⟨?_, ?_, rfl, by decide⟩
  · intro h
    simp [updateTaskTitleH, updFirstH, heap0, heapObj, demoBoardsH, boardObjH,
      hGet, hSet, findIndex, getAt] at h
  · simp [updateTaskTitleH, demoBoardsH, boardObjH, findIndex, getAt]

/-- C3 (amended): each operation returns a fresh outer boards array whose
value equals the input (the address list is unchanged), but the located
task object is updated in place: after updateTaskTitle (resp.
updateTaskPriority) every heap object is unchanged except possibly the
first found task with the given id, which differs only in its title
(resp. priority) field. -/
theorem C3_field_update_frame :
    ∀ (h : Heap) (boards : List BoardObj) (bid tid nt pr : String) (fuel : Nat),
      (updateTaskTitleH h boards bid tid nt fuel).2 = boards ∧
      (∀ addr, hGet (updateTaskTitleH h boards bid tid nt fuel).1 addr =
          hGet h addr ∨
        ∃ o, hGet h addr = some o ∧ o.id = tid ∧
          hGet (updateTaskTitleH h boards bid tid nt fuel).1 addr =
            some { o with title := nt }) ∧
      (updateTaskPriorityH h boards bid tid pr fuel).2 = boards ∧
      (∀ addr, hGet (updateTaskPriorityH h boards bid tid pr fuel).1 addr =
          hGet h addr ∨
        ∃ o, hGet h addr = some o ∧ o.id = tid ∧
          hGet (updateTaskPriorityH h boards bid tid pr fuel).1 addr =
            some { o with priority := pr }) := by
  intro h boards bid tid nt pr fuel
  refine ⟨?_, ?_, ?_, ?_⟩
  · unfold updateTaskTitleH
    cases hfi : findIndex (fun b => b.id = bid) boards with
    | none => rfl
    | some bi =>
      dsimp only
      cases hga : getAt boards bi with
      | none => rfl
      | some b => rfl
  · intro addr
    unfold updateTaskTitleH
    cases hfi : findIndex (fun b => b.id = bid) boards with
    | none => exact Or.inl rfl
    | some bi =>
      dsimp only
      cases hga : getAt boards bi with
      | none => exact Or.inl rfl
      | some b =>
        exact updFirstH_frame (fun o => { o with title := nt }) tid fuel
          b.tasks h addr
  · unfold updateTaskPriorityH
    cases hfi : findIndex (fun b => b.id = bid) boards with
    | none => rfl
    | some bi =>
      dsimp only
      cases hga : getAt boards bi with
      | none => rfl
      | some b => rfl
  · intro addr
    unfold updateTaskPriorityH
    cases hfi : findIndex (fun b => b.id = bid) boards with
    | none => exact Or.inl rfl
    | some bi =>
      dsimp only
      cases hga : getAt boards bi with
      | none => exact Or.inl rfl
      | some b =>
        exact updFirstH_frame (fun o => { o with priority := pr }) tid fuel
          b.tasks h addr

/-- C8: saving a tree under a key and loading the same key returns an
equal tree: the serialization is lossless for every defined field of
boards and tasks, including nested subtasks and content. -/
theorem C8_save_load_roundtrip :
    ∀ (store : List (String × Json)) (key : String) (bs : List Board),
      loadFromLocalStorage (saveToLocalStorage store key bs) key = some bs := by
  intro store key bs
  unfold loadFromLocalStorage saveToLocalStorage
  rw [lsGet_lsSet_self]
  show treeOfJson (treeToJson bs) = some bs
  unfold treeOfJson treeToJson
  exact boardListOfJson_roundtrip bs

end Kanban
